import Mathlib

/-!
Shallow embedding of the OTT cost-function module (`ott/geometry/costs.py`)
and proofs of the specification claims about it.

Vectors are modelled as `List ℚ` (or `Fin d → ℚ`) where the source only uses
ring operations, and as real-valued objects where the source uses
transcendental functions.  Batched arrays with a leading axis are lists of
rows, or functions out of `Fin n`.
-/

namespace OTTCosts

/-! ### Basic vector operations (jax.numpy primitives on 1-D arrays) -/

/-- Embedding of `jnp.vdot` on equal-length vectors. -/
def vdot (x y : List ℚ) : ℚ := (List.zipWith (· * ·) x y).sum

/-- Embedding of elementwise difference `x - y` of two arrays. -/
def listSub (x y : List ℚ) : List ℚ := List.zipWith (· - ·) x y

/-- Embedding of `jnp.sum(z ** 2)`, the sum of squared entries. -/
def sumSq (z : List ℚ) : ℚ := (z.map (fun t => t ^ 2)).sum

/-! ### `CostFn` base class -/

/-- Embedding of `CostFn._padder`: `jnp.zeros((1, dim))`, a single zero row. -/
def CostFn.padder (dim : ℕ) : List (List ℚ) := [List.replicate dim 0]

/-- Embedding of `CostFn.all_pairs` (generic in the pairwise cost `c`, which
is the embedding of `self.__call__`): `jax.vmap` of `jax.vmap` of the cost,
i.e. the full outer product of evaluations. -/
def allPairs {α β γ : Type} (c : α → β → γ) (x : List α) (y : List β) :
    List (List γ) :=
  x.map (fun xr => y.map (fun yr => c xr yr))

/-- Embedding of `CostFn.barycenter`: raises `NotImplementedError`, modelled
as an `Except.error`. -/
def CostFn.barycenter {σ : Type} : Except String σ :=
  .error "Barycenter is not implemented."

/-! ### `TICost`: translation-invariant costs -/

/-- Embedding of a translation-invariant cost: the data is the potential
`h` acting on the difference of the two inputs.  Subclasses (`PNormP`,
`SqPNorm`, `EuclideanP`, `RegTICost`, `SqEuclidean`) differ only in `h`
(and in which optional methods they override). -/
structure TICost where
  h : List ℚ → ℚ

/-- Embedding of `TICost.__call__`: `self.h(x - y)`. -/
def TICost.call (c : TICost) (x y : List ℚ) : ℚ := c.h (listSub x y)

/-- Embedding of `jnp.average(xs, weights=weights, axis=0)` for a 2-D `xs`
given as `n` rows of dimension `d`: entry `j` of the result is
`(Σ_i w_i * xs_i_j) / (Σ_i w_i)`. -/
def jnpAverage {n d : ℕ} (weights : Fin n → ℚ) (xs : Fin n → Fin d → ℚ) :
    Fin d → ℚ :=
  fun j => (∑ i, weights i * xs i j) / (∑ i, weights i)

/-- Embedding of `TICost.barycenter`: inherited unchanged by every
translation-invariant subclass (none of `PNormP`, `SqPNorm`, `EuclideanP`,
`RegTICost` overrides it); returns `jnp.average(xs, weights, axis=0)`
paired with `None` auxiliary data, never the `NotImplementedError` of the
base class.  The cost object `c` is passed to reflect that this is a method
on an arbitrary TI cost; its potential `h` is unused. -/
def TICost.barycenter {n d : ℕ} (_c : TICost) (weights : Fin n → ℚ)
    (xs : Fin n → Fin d → ℚ) : Except String ((Fin d → ℚ) × Option Unit) :=
  .ok (jnpAverage weights xs, none)

/-- Embedding of `TICost.twist_operator`, generic in the gradient of the
Legendre transform of `h` (the source computes it as
`jax.grad(self.h_legendre)`; the automatic-differentiation engine is an
external collaborator, so the gradient function is a parameter here).
Vectors are `Fin d → ℚ` so that `+`, `-` and negation are pointwise. -/
def TICost.twistOperator {d : ℕ} (gradHLegendre : (Fin d → ℚ) → (Fin d → ℚ))
    (vec dualVec : Fin d → ℚ) (var : Bool) : Fin d → ℚ :=
  if var then vec + gradHLegendre (-dualVec)
  else vec - gradHLegendre dualVec

/-! ### `SqEuclidean` -/

/-- Embedding of `SqEuclidean.norm`: `jnp.sum(x ** 2, axis=-1)` on a single
vector. -/
def SqEuclidean.norm (x : List ℚ) : ℚ := sumSq x

/-- Embedding of `SqEuclidean.__call__`:
`self.norm(x) + self.norm(y) - 2 * jnp.vdot(x, y)`. -/
def SqEuclidean.call (x y : List ℚ) : ℚ :=
  SqEuclidean.norm x + SqEuclidean.norm y + (-2 * vdot x y)

/-- Embedding of `SqEuclidean.h`: `jnp.sum(z ** 2)`. -/
def SqEuclidean.h (z : List ℚ) : ℚ := sumSq z

/-- Embedding of `SqEuclidean.h_legendre`: `0.25 * jnp.sum(z ** 2)`. -/
def SqEuclidean.hLegendre (z : List ℚ) : ℚ := (1 / 4) * sumSq z

/-- The `TICost` object whose potential is `SqEuclidean.h` (the class
`SqEuclidean` as a translation-invariant cost). -/
def sqEuclideanTI : TICost := ⟨SqEuclidean.h⟩

/-! ### `Dotp` -/

/-- Embedding of `Dotp.__call__`: `-jnp.vdot(x, y)`. -/
def Dotp.call (x y : List ℚ) : ℚ := -vdot x y

/-- Embedding of `Dotp.twist_operator`:
`-vec if variable else -dual_vec` (on pointwise-negatable vectors). -/
def Dotp.twistOperator {d : ℕ} (vec dualVec : Fin d → ℚ) (var : Bool) :
    Fin d → ℚ :=
  if var then -vec else -dualVec

/-! ### `Cosine` padder -/

/-- Embedding of `Cosine._padder`: `jnp.ones((1, dim))`, a single all-ones
row. -/
def Cosine.padder (dim : ℕ) : List (List ℚ) := [List.replicate dim 1]

/-! ### Helper lemmas -/

/-- Expansion of the squared difference: for equal-length vectors,
`Σ (x_i - y_i)^2 = Σ x_i^2 + Σ y_i^2 - 2 Σ x_i y_i`. -/
theorem sumSq_listSub (x y : List ℚ) (hlen : x.length = y.length) :
    sumSq (listSub x y) = sumSq x + sumSq y - 2 * vdot x y := by
  induction x generalizing y with
  | nil =>
    cases y with
    | nil => simp [sumSq, listSub, vdot]
    | cons b ys => simp at hlen
  | cons a xs ih =>
    cases y with
    | nil => simp at hlen
    | cons b ys =>
      simp only [List.length_cons, Nat.add_right_cancel_iff] at hlen
      simp only [sumSq, listSub, vdot, List.zipWith_cons_cons, List.map_cons,
        List.sum_cons] at *
      rw [ih ys hlen]
      ring

theorem sumSq_replicate_zero (d : ℕ) : sumSq (List.replicate d 0) = 0 := by
  induction d with
  | zero => simp [sumSq]
  | succ k ih => simp [sumSq, List.replicate_succ] at ih ⊢

theorem sumSq_replicate_one (d : ℕ) : sumSq (List.replicate d 1) = d := by
  induction d with
  | zero => simp [sumSq]
  | succ k ih =>
    simp only [sumSq, List.replicate_succ, List.map_cons, List.sum_cons] at *
    rw [ih]
    push_cast
    ring

/-! ### Claim theorems: C1 -/

/-- C1: for every translation-invariant cost, evaluation on `(x, y)` is the
potential `h` applied to `x - y`; in particular `SqEuclidean`'s optimized
evaluation `‖x‖² + ‖y‖² - 2⟨x,y⟩` agrees with `h(x - y) = ‖x - y‖²` on
equal-length inputs, `SqEuclidean()([1,2],[1,2]) = 0` and
`SqEuclidean()([0,0],[3,4]) = 25`. -/
theorem C1_ticost_eval_is_h_of_diff (x y : List ℚ)
    (hlen : x.length = y.length) :
    (∀ (c : TICost) (u v : List ℚ), c.call u v = c.h (listSub u v)) ∧
    SqEuclidean.call x y = SqEuclidean.h (listSub x y) ∧
    SqEuclidean.call [1, 2] [1, 2] = 0 ∧
    SqEuclidean.call [0, 0] [3, 4] = 25 := by
  refine ⟨fun c u v => rfl, ?_,
    by norm_num [SqEuclidean.call, SqEuclidean.norm, sumSq, vdot],
    by norm_num [SqEuclidean.call, SqEuclidean.norm, sumSq, vdot]⟩
  rw [SqEuclidean.h, sumSq_listSub x y hlen]
  simp only [SqEuclidean.call, SqEuclidean.norm]
  ring

/-- Witness for C1 at the concrete input `x = [1, 2]`, `y = [3, 4]`. -/
theorem C1_ticost_eval_is_h_of_diff_witness :
    SqEuclidean.call [1, 2] [3, 4] = SqEuclidean.h (listSub [1, 2] [3, 4]) ∧
    SqEuclidean.call [1, 2] [1, 2] = 0 ∧
    SqEuclidean.call [0, 0] [3, 4] = 25 :=
  ⟨(C1_ticost_eval_is_h_of_diff [1, 2] [3, 4] rfl).2.1,
   (C1_ticost_eval_is_h_of_diff [1, 2] [3, 4] rfl).2.2.1,
   (C1_ticost_eval_is_h_of_diff [1, 2] [3, 4] rfl).2.2.2⟩

/-! ### Claim theorems: C3 -/

/-- C3: the default `all_pairs(X, Y)` is the `n × m` matrix of pairwise
evaluations: it has `n` rows, each of length `m`, and its `(i, j)` entry is
`c (X.get i) (Y.get j)`.  The statement is generic in the pairwise cost `c`
(the embedding of `self.__call__`), hence covers every cost variant,
including those that override `__call__` with closed-form shortcuts. -/
theorem C3_all_pairs_outer_product {α β γ : Type} (c : α → β → γ)
    (x : List α) (y : List β) (i j : ℕ)
    (hi : i < x.length) (hj : j < y.length) :
    (allPairs c x y).length = x.length ∧
    (∀ row ∈ allPairs c x y, row.length = y.length) ∧
    ((allPairs c x y).get ⟨i, by simpa [allPairs] using hi⟩).get
        ⟨j, by simpa [allPairs] using hj⟩ =
      c (x.get ⟨i, hi⟩) (y.get ⟨j, hj⟩) := by
  refine ⟨by simp [allPairs], ?_, ?_⟩
  · intro row hrow
    simp only [allPairs, List.mem_map] at hrow
    obtain ⟨a, _, rfl⟩ := hrow
    simp
  · simp [allPairs]

/-- Witness for C3: the squared-Euclidean cost on a concrete `2 × 2`
instance, checked at entry `(1, 0)`. -/
theorem C3_all_pairs_outer_product_witness :
    (allPairs SqEuclidean.call [[0, 0], [1, 1]] [[1, 2], [3, 4]]).length = 2 ∧
    (∀ row ∈ allPairs SqEuclidean.call [[0, 0], [1, 1]] [[1, 2], [3, 4]],
      row.length = 2) ∧
    ((allPairs SqEuclidean.call [[0, 0], [1, 1]] [[1, 2], [3, 4]]).get
        ⟨1, by decide⟩).get ⟨0, by decide⟩ =
      SqEuclidean.call [1, 1] [1, 2] := by
  have h := C3_all_pairs_outer_product SqEuclidean.call
    [[0, 0], [1, 1]] [[1, 2], [3, 4]] 1 0 (by decide) (by decide)
  exact ⟨h.1, h.2.1, h.2.2⟩

/-! ### Claim theorems: C4 -/

/-- C4: the generic twist operator of a translation-invariant cost returns
`vec + grad(h_legendre)(-dual_vec)` when `variable` selects the second
argument (`true`) and `vec - grad(h_legendre)(dual_vec)` when it selects
the first (`false`). -/
theorem C4_ti_twist_operator {d : ℕ}
    (g : (Fin d → ℚ) → (Fin d → ℚ)) (vec dualVec : Fin d → ℚ) :
    TICost.twistOperator g vec dualVec true = vec + g (-dualVec) ∧
    TICost.twistOperator g vec dualVec false = vec - g dualVec :=
  ⟨rfl, rfl⟩

/-! ### Claim theorems: C5 -/

/-- C5 evaluation: at `vec = [1]`, `dual_vec = [2]`, the `Dotp` twist
operator returns `-dual_vec = [-2]` for `variable = false` but `-vec = [-1]`
(not `-dual_vec = [-2]`) for `variable = true`, contradicting the
`CostFn.twist_operator` contract, which requires
`∇₂ c(·, y)⁻¹ (z) = -z = -dual_vec` for `c(x, y) = -⟨x, y⟩`. -/
theorem C5_dotp_twist_eval :
    Dotp.twistOperator ![(1 : ℚ)] ![(2 : ℚ)] false = -![(2 : ℚ)] ∧
    Dotp.twistOperator ![(1 : ℚ)] ![(2 : ℚ)] true = -![(1 : ℚ)] ∧
    Dotp.twistOperator ![(1 : ℚ)] ![(2 : ℚ)] true ≠ -![(2 : ℚ)] := by
  refine ⟨rfl, rfl, fun h => ?_⟩
  have h0 := congrFun h 0
  simp [Dotp.twistOperator] at h0

/-! ### Claim theorems: C9 -/

/-- C9 counterexample: the claim "Cosine's padder returns a vector of
Euclidean norm 1 for every dimension `d ≥ 1`" fails at `d = 4`: the padder
row is `[1, 1, 1, 1]`, whose squared Euclidean norm is `4 ≠ 1` (so its norm
is `2`, not `1`). -/
theorem C9_cosine_padder_not_unit_norm :
    sumSq ((Cosine.padder 4).getD 0 []) = 4 ∧
    sumSq ((Cosine.padder 4).getD 0 []) ≠ 1 := by
  constructor <;> norm_num [Cosine.padder, sumSq, List.replicate]

/-- C9 amended: `Cosine._padder(dim)` returns the all-ones row (with squared
Euclidean norm `dim`, hence nonzero — non-degenerate for the cosine formula,
which divides by the norms — for every `dim ≥ 1`), whereas the base-cost
default padder returns the zero row (squared norm `0`). -/
theorem C9_cosine_padder_ones (d : ℕ) (hd : 1 ≤ d) :
    Cosine.padder d = [List.replicate d 1] ∧
    sumSq ((Cosine.padder d).getD 0 []) = d ∧
    sumSq ((Cosine.padder d).getD 0 []) ≠ 0 ∧
    CostFn.padder d = [List.replicate d 0] ∧
    sumSq ((CostFn.padder d).getD 0 []) = 0 := by
  have h1 : sumSq ((Cosine.padder d).getD 0 []) = d := by
    simpa [Cosine.padder] using sumSq_replicate_one d
  refine ⟨rfl, h1, ?_, rfl,
    by simpa [CostFn.padder] using sumSq_replicate_zero d⟩
  rw [h1]
  exact_mod_cast Nat.one_le_iff_ne_zero.mp hd

/-- Witness for C9 amended at `d = 3`. -/
theorem C9_cosine_padder_ones_witness :
    Cosine.padder 3 = [List.replicate 3 1] ∧
    sumSq ((Cosine.padder 3).getD 0 []) = 3 ∧
    sumSq ((Cosine.padder 3).getD 0 []) ≠ 0 ∧
    CostFn.padder 3 = [List.replicate 3 0] ∧
    sumSq ((CostFn.padder 3).getD 0 []) = 0 :=
  C9_cosine_padder_ones 3 (by decide)

/-! ### Claim theorems: C10 -/

/-- C10: every translation-invariant cost provides a working barycenter,
regardless of its potential `h`: it returns `Except.ok` (never the
`NotImplementedError` of the base class) with the arithmetic weighted
average of the rows of `xs` and `None` auxiliary data; and when the weight
sum is nonzero that average is `Σ_i (w_i / Σ w) * xs_i` componentwise. -/
theorem C10_ti_barycenter_weighted_average {n d : ℕ} (c : TICost)
    (weights : Fin n → ℚ) (xs : Fin n → Fin d → ℚ)
    (_hw : (∑ i, weights i) ≠ 0) :
    c.barycenter weights xs = .ok (jnpAverage weights xs, none) ∧
    (∀ j, jnpAverage weights xs j =
      ∑ i, (weights i / ∑ k, weights k) * xs i j) := by
  refine ⟨rfl, fun j => ?_⟩
  rw [jnpAverage, Finset.sum_div]
  exact Finset.sum_congr rfl (fun i _ => by ring)

/-- Witness for C10: the barycenter of `[[0, 2], [4, 6]]` with weights
`(1, 3)` under the squared-Euclidean TI cost. -/
theorem C10_ti_barycenter_weighted_average_witness :
    sqEuclideanTI.barycenter ![(1 : ℚ), 3] ![![0, 2], ![4, 6]] =
      .ok (jnpAverage ![(1 : ℚ), 3] ![![0, 2], ![4, 6]], none) ∧
    (∀ j, jnpAverage ![(1 : ℚ), 3] ![![0, 2], ![4, 6]] j =
      ∑ i, ((![(1 : ℚ), 3]) i / ∑ k, (![(1 : ℚ), 3]) k) *
        (![![0, 2], ![4, 6]]) i j) :=
  C10_ti_barycenter_weighted_average sqEuclideanTI ![1, 3] ![![0, 2], ![4, 6]]
    (by norm_num [Fin.sum_univ_two])

/-! ### `Bures`: Gaussians, packed vectors, and the covariance fixed point

Matrices are `Matrix (Fin d) (Fin d) ℚ`.  The external matrix-square-root
routine `ott.math.matrix_square_root.sqrtm` (an out-of-scope collaborator)
is a parameter: `sqrtm` returns the pair (square root, inverse square root)
— the source also returns diagnostic errors, which the cost code discards —
and `sqrtmOnly` embeds `matrix_square_root.sqrtm_only`. -/

/-- The space of `d × d` rational matrices. -/
abbrev Mat (d : ℕ) := Matrix (Fin d) (Fin d) ℚ

/-- Embedding of `x_to_means_and_covs`, mean part: the first `d` entries of
the packed vector. -/
def xToMean {d : ℕ} (x : Fin (d + d * d) → ℚ) : Fin d → ℚ :=
  fun j => x (Fin.castLE (Nat.le_add_right d (d * d)) j)

/-- Embedding of `x_to_means_and_covs`, covariance part: entries
`d ..< d + d * d` of the packed vector, reshaped row-major to `d × d`. -/
def xToCov {d : ℕ} (x : Fin (d + d * d) → ℚ) : Mat d :=
  fun a b => x ⟨d + ((a : ℕ) * d + (b : ℕ)), by
    have ha : (a : ℕ) + 1 ≤ d := a.isLt
    have hb : (b : ℕ) < d := b.isLt
    have h2 : ((a : ℕ) + 1) * d ≤ d * d := Nat.mul_le_mul ha (Nat.le_refl d)
    rw [add_mul, one_mul] at h2
    omega⟩

/-- Embedding of `mean_and_cov_to_x`: concatenate a mean vector with a
row-major raveled covariance matrix. -/
def meanAndCovToX {d : ℕ} (mean : Fin d → ℚ) (cov : Mat d) :
    Fin (d + d * d) → ℚ := fun i =>
  if h : (i : ℕ) < d then mean ⟨i, h⟩
  else
    have hd : 0 < d := by
      rcases Nat.eq_zero_or_pos d with h0 | h0
      · exact absurd i.isLt (by simp [h0])
      · exact h0
    have hr : (i : ℕ) - d < d * d := by have := i.isLt; omega
    cov ⟨((i : ℕ) - d) / d, by rw [Nat.div_lt_iff_lt_mul hd]; exact hr⟩
      ⟨((i : ℕ) - d) % d, Nat.mod_lt _ hd⟩

/-- Embedding of the weight normalization `weights / jnp.sum(weights)`
performed by `Bures.barycenter`. -/
def normalizeWeights {k : ℕ} (weights : Fin k → ℚ) : Fin k → ℚ :=
  fun i => weights i / ∑ j, weights j

/-- Embedding of `scale_covariances` inside
`Bures.covariance_fixpoint_iter`:
`weight * sqrtm_only((cov_sqrt @ cov) @ cov_sqrt)`, vmapped over the batch
of covariances and weights. -/
def scaleCovariances {d k : ℕ} (sqrtmOnly : Mat d → Mat d) (covSqrt : Mat d)
    (covs : Fin k → Mat d) (weights : Fin k → ℚ) : Fin k → Mat d :=
  fun i => weights i • sqrtmOnly ((covSqrt * covs i) * covSqrt)

/-- Embedding of `body_fn` of `Bures.covariance_fixpoint_iter`: one
fixed-point update of the covariance estimate, recording the normalized
squared Frobenius difference of successive iterates at index
`iteration / inner_iterations` of the diagnostics array (`jnp`'s `.set`
drops an out-of-range index, as does `List.set`). -/
def buresBodyFn {d k : ℕ} (sqrtm : Mat d → Mat d × Mat d)
    (sqrtmOnly : Mat d → Mat d) (covs : Fin k → Mat d)
    (weights : Fin k → ℚ) (innerIterations : ℕ) (iteration : ℕ)
    (state : Mat d × List ℚ) : Mat d × List ℚ :=
  let cov := state.1
  let diffs := state.2
  let covSqrt := (sqrtm cov).1
  let covInvSqrt := (sqrtm cov).2
  let scaledCov := (∑ i, scaleCovariances sqrtmOnly covSqrt covs weights i) ^ 2
  let nextCov := (covInvSqrt * scaledCov) * covInvSqrt
  let diff := (∑ i, ∑ j, ((nextCov - cov) i j) ^ 2) / ((d : ℚ) * d)
  (nextCov, diffs.set (iteration / innerIterations) diff)

/-- Embedding of `cond_fn` of `Bures.covariance_fixpoint_iter`:
`diffs[iteration // inner_iterations] > tolerance`. -/
def buresCondFn (innerIterations : ℕ) (tolerance : ℚ) {d : ℕ}
    (iteration : ℕ) (state : Mat d × List ℚ) : Bool :=
  state.2.getD (iteration / innerIterations) 0 > tolerance

/-- Ceiling division on naturals, the value of
`math.ceil(max_iterations / inner_iterations)`. -/
def ceilDiv (a b : ℕ) : ℕ := (a + b - 1) / b

/-- Embedding of `init_state` of `Bures.covariance_fixpoint_iter`: the
identity matrix paired with a diagnostics array of
`math.ceil(max_iterations / inner_iterations)` entries, all `-1`. -/
def buresInitState (d maxIterations innerIterations : ℕ) :
    Mat d × List ℚ :=
  (1, List.replicate (ceilDiv maxIterations innerIterations) (-1))

/-- Helper for the fixed-point loop: run the step function for
`cnt` consecutive iterations starting at iteration index `i`. -/
def runBlock {σ : Type} (stepFn : ℕ → σ → σ) : ℕ → ℕ → σ → σ
  | _, 0, s => s
  | i, cnt + 1, s => runBlock stepFn (i + 1) cnt (stepFn i s)

/-- Helper for the fixed-point loop: run up to `fuel` blocks of
`innerIterations` iterations, stopping at a block boundary `i` with
`minIterations ≤ i` once the stopping predicate fails. -/
def fixpointGo {σ : Type} (stopFn : ℕ → σ → Bool) (stepFn : ℕ → σ → σ)
    (minIterations innerIterations : ℕ) : ℕ → ℕ → σ → σ
  | 0, _, s => s
  | fuel + 1, i, s =>
    if minIterations ≤ i ∧ stopFn i s = false then s
    else
      fixpointGo stopFn stepFn minIterations innerIterations fuel
        (i + innerIterations) (runBlock stepFn i innerIterations s)

/-- Modelled from the spec: the generic fixed-point loop driver
`ott.math.fixed_point_loop.fixpoint_iter`, whose source file is not part of
this repository snapshot.  Per the spec (sections 4.5 and 6), it advances
the step function through iterations `0, 1, ...` in blocks of
`inner_iterations` within a statically bounded budget of `max_iterations`,
evaluates the stopping predicate on the current iteration index and state
only at block boundaries, never stops before `min_iterations`, and returns
the final state. -/
def fixpointIter {σ : Type} (stopFn : ℕ → σ → Bool) (stepFn : ℕ → σ → σ)
    (minIterations maxIterations innerIterations : ℕ) (state : σ) : σ :=
  fixpointGo stopFn stepFn minIterations innerIterations
    (ceilDiv maxIterations innerIterations) 0 state

/-- Embedding of `Bures.covariance_fixpoint_iter`: the fixed-point loop on
the state `(covariance estimate, diagnostics array)` from `init_state`. -/
def covarianceFixpointIter {d k : ℕ} (sqrtm : Mat d → Mat d × Mat d)
    (sqrtmOnly : Mat d → Mat d) (covs : Fin k → Mat d)
    (weights : Fin k → ℚ) (tolerance : ℚ)
    (minIterations maxIterations innerIterations : ℕ) : Mat d × List ℚ :=
  fixpointIter (buresCondFn innerIterations tolerance)
    (buresBodyFn sqrtm sqrtmOnly covs weights innerIterations)
    minIterations maxIterations innerIterations
    (buresInitState d maxIterations innerIterations)

/-- Embedding of `Bures.barycenter`: normalize the weights to sum to one,
take the weighted mean of the means, delegate the covariance to
`covariance_fixpoint_iter`, and return the packed Gaussian with the
diagnostics array. -/
def buresBarycenter {d k : ℕ} (sqrtm : Mat d → Mat d × Mat d)
    (sqrtmOnly : Mat d → Mat d) (weights : Fin k → ℚ)
    (xs : Fin k → Fin (d + d * d) → ℚ) (tolerance : ℚ)
    (minIterations maxIterations innerIterations : ℕ) :
    (Fin (d + d * d) → ℚ) × List ℚ :=
  let w := normalizeWeights weights
  let res := covarianceFixpointIter sqrtm sqrtmOnly
    (fun i => xToCov (xs i)) w tolerance
    minIterations maxIterations innerIterations
  (meanAndCovToX (fun j => ∑ i, w i * xToMean (xs i) j) res.1, res.2)

/-- Specification-side quantity for C7: squared Frobenius norm of the
difference of two matrices, divided by the number `d * d` of entries. -/
def frobeniusDiffNormalized {d : ℕ} (a b : Mat d) : ℚ :=
  (∑ i, ∑ j, ((a - b) i j) ^ 2) / ((d : ℚ) * d)

/-! ### Helper lemmas for the fixed-point loop -/

theorem runBlock_invariant {σ : Type} (P : σ → Prop) (stepFn : ℕ → σ → σ)
    (hstep : ∀ i s, P s → P (stepFn i s)) :
    ∀ i cnt s, P s → P (runBlock stepFn i cnt s) := by
  intro i cnt
  induction cnt generalizing i with
  | zero => intro s hs; exact hs
  | succ n ih => intro s hs; exact ih (i + 1) (stepFn i s) (hstep i s hs)

theorem fixpointGo_invariant {σ : Type} (P : σ → Prop)
    (stopFn : ℕ → σ → Bool) (stepFn : ℕ → σ → σ)
    (minIterations innerIterations : ℕ)
    (hstep : ∀ i s, P s → P (stepFn i s)) :
    ∀ fuel i s, P s →
      P (fixpointGo stopFn stepFn minIterations innerIterations fuel i s) := by
  intro fuel
  induction fuel with
  | zero => intro i s hs; exact hs
  | succ n ih =>
    intro i s hs
    rw [fixpointGo]
    split
    · exact hs
    · exact ih (i + innerIterations) _
        (runBlock_invariant P stepFn hstep i innerIterations s hs)

theorem fixpointIter_invariant {σ : Type} (P : σ → Prop)
    (stopFn : ℕ → σ → Bool) (stepFn : ℕ → σ → σ)
    (minIterations maxIterations innerIterations : ℕ) (s : σ)
    (hstep : ∀ i s, P s → P (stepFn i s)) (hs : P s) :
    P (fixpointIter stopFn stepFn minIterations maxIterations
        innerIterations s) :=
  fixpointGo_invariant P stopFn stepFn minIterations innerIterations hstep
    (ceilDiv maxIterations innerIterations) 0 s hs

/-- Ceiling division agrees with the ceiling of the rational quotient. -/
theorem ceilDiv_eq_ceil (a b : ℕ) (hb : 0 < b) :
    ceilDiv a b = ⌈(a : ℚ) / b⌉₊ := by
  have hbq : (0 : ℚ) < b := by exact_mod_cast hb
  apply le_antisymm
  · have h1 : (a : ℚ) / b ≤ (⌈(a : ℚ) / b⌉₊ : ℚ) := Nat.le_ceil _
    have h2 : (a : ℚ) ≤ (⌈(a : ℚ) / b⌉₊ : ℚ) * b := by
      rwa [div_le_iff₀ hbq] at h1
    have h3 : a ≤ ⌈(a : ℚ) / b⌉₊ * b := by exact_mod_cast h2
    have h4 : ceilDiv a b < ⌈(a : ℚ) / b⌉₊ + 1 := by
      rw [ceilDiv, Nat.div_lt_iff_lt_mul hb, add_mul, one_mul]
      omega
    omega
  · rw [Nat.ceil_le, div_le_iff₀ hbq]
    have hdm := Nat.div_add_mod (a + b - 1) b
    have hmod := Nat.mod_lt (a + b - 1) hb
    have hle : a ≤ b * ceilDiv a b := by
      rw [ceilDiv]
      omega
    calc (a : ℚ) ≤ ((b * ceilDiv a b : ℕ) : ℚ) := by exact_mod_cast hle
      _ = (ceilDiv a b : ℚ) * b := by push_cast; ring

/-- The mean block of a packed Gaussian is the mean that was packed. -/
theorem meanAndCovToX_mean {d : ℕ} (mean : Fin d → ℚ) (cov : Mat d)
    (j : Fin d) :
    meanAndCovToX mean cov (Fin.castLE (Nat.le_add_right d (d * d)) j) =
      mean j := by
  have hj : ((Fin.castLE (Nat.le_add_right d (d * d)) j :
      Fin (d + d * d)) : ℕ) < d := j.isLt
  unfold meanAndCovToX
  rw [dif_pos hj]
  rfl

/-- The diagnostics array returned by `covariance_fixpoint_iter` keeps its
initial length `ceil(max_iterations / inner_iterations)`. -/
theorem covarianceFixpointIter_diffs_length {d k : ℕ}
    (sqrtm : Mat d → Mat d × Mat d) (sqrtmOnly : Mat d → Mat d)
    (covs : Fin k → Mat d) (weights : Fin k → ℚ) (tolerance : ℚ)
    (minIterations maxIterations innerIterations : ℕ) :
    (covarianceFixpointIter sqrtm sqrtmOnly covs weights tolerance
        minIterations maxIterations innerIterations).2.length =
      ceilDiv maxIterations innerIterations :=
  fixpointIter_invariant
    (fun (st : Mat d × List ℚ) =>
      st.2.length = ceilDiv maxIterations innerIterations)
    (buresCondFn innerIterations tolerance)
    (buresBodyFn sqrtm sqrtmOnly covs weights innerIterations)
    minIterations maxIterations innerIterations
    (buresInitState d maxIterations innerIterations)
    (fun i st hst => by
      obtain ⟨cov, diffs⟩ := st
      simpa [buresBodyFn] using hst)
    (by simp [buresInitState])

/-! ### Claim theorems: C6 -/

/-- C6: `Bures.barycenter` normalizes its weights before use, so scaling
the weight vector by any positive constant `c` leaves the result unchanged;
and the mean block of the returned packed Gaussian is the arithmetic
weighted mean of the input means under the normalized weights.  The
external matrix square-root routines and the loop parameters are arbitrary
parameters. -/
theorem C6_bures_barycenter_normalizes_weights {d k : ℕ}
    (sqrtm : Mat d → Mat d × Mat d) (sqrtmOnly : Mat d → Mat d)
    (weights : Fin k → ℚ) (xs : Fin k → Fin (d + d * d) → ℚ)
    (tolerance : ℚ) (minIterations maxIterations innerIterations : ℕ)
    (c : ℚ) (hc : 0 < c) (_hnn : ∀ i, 0 ≤ weights i)
    (_hw : (∑ i, weights i) ≠ 0) :
    buresBarycenter sqrtm sqrtmOnly (fun i => c * weights i) xs tolerance
        minIterations maxIterations innerIterations =
      buresBarycenter sqrtm sqrtmOnly weights xs tolerance
        minIterations maxIterations innerIterations ∧
    (∀ j : Fin d,
      (buresBarycenter sqrtm sqrtmOnly weights xs tolerance
          minIterations maxIterations innerIterations).1
          (Fin.castLE (Nat.le_add_right d (d * d)) j) =
        ∑ i, (weights i / ∑ i2, weights i2) * xToMean (xs i) j) := by
  constructor
  · have hnorm : normalizeWeights (fun i => c * weights i) =
        normalizeWeights weights := by
      funext i
      rw [normalizeWeights, normalizeWeights, ← Finset.mul_sum,
        mul_div_mul_left _ _ (ne_of_gt hc)]
    simp only [buresBarycenter, hnorm]
  · intro j
    show meanAndCovToX
        (fun j2 => ∑ i, normalizeWeights weights i * xToMean (xs i) j2)
        (covarianceFixpointIter sqrtm sqrtmOnly (fun i => xToCov (xs i))
          (normalizeWeights weights) tolerance minIterations maxIterations
          innerIterations).1
        (Fin.castLE (Nat.le_add_right d (d * d)) j) = _
    rw [meanAndCovToX_mean]
    rfl

/-- Witness for C6 at `d = 1`, `k = 2`, with trivial square-root
parameters, weights `(1, 3)` scaled by `c = 2`, and concrete packed
Gaussians `(mean, cov) = (0, 1)` and `(4, 1)`. -/
theorem C6_bures_barycenter_normalizes_weights_witness :
    buresBarycenter (d := 1) (fun m => (m, m)) (fun m => m)
        (fun i => 2 * (![1, 3]) i) ![![0, 1], ![4, 1]] (1 / 1000) 1 10 5 =
      buresBarycenter (d := 1) (fun m => (m, m)) (fun m => m) ![1, 3]
        ![![0, 1], ![4, 1]] (1 / 1000) 1 10 5 ∧
    (∀ j : Fin 1,
      (buresBarycenter (d := 1) (fun m => (m, m)) (fun m => m) ![1, 3]
          ![![0, 1], ![4, 1]] (1 / 1000) 1 10 5).1
          (Fin.castLE (Nat.le_add_right 1 (1 * 1)) j) =
        ∑ i, ((![1, 3]) i / ∑ i2, (![(1 : ℚ), 3]) i2) *
          xToMean ((![![0, 1], ![4, 1]]) i) j) :=
  C6_bures_barycenter_normalizes_weights (d := 1) (k := 2) (fun m => (m, m))
    (fun m => m) ![1, 3] ![![0, 1], ![4, 1]] (1 / 1000) 1 10 5 2 (by norm_num)
    (fun i => by fin_cases i <;> norm_num)
    (by norm_num [Fin.sum_univ_two])

/-! ### Claim theorems: C7 -/

/-- C7: in `Bures.covariance_fixpoint_iter`, the covariance estimate is
initialized to the `d × d` identity, the diagnostics array has exactly
`ceil(max_iterations / inner_iterations)` entries (initially and as
returned), and the diagnostic written by the body at iteration `k` is
stored at index `k / inner_iterations` (floor division) and equals the
squared Frobenius difference of the next and current covariance estimates
divided by the number `d²` of matrix entries. -/
theorem C7_bures_fixpoint_diagnostics {d k : ℕ}
    (sqrtm : Mat d → Mat d × Mat d) (sqrtmOnly : Mat d → Mat d)
    (covs : Fin k → Mat d) (weights : Fin k → ℚ) (tolerance : ℚ)
    (minIterations maxIterations innerIterations : ℕ)
    (hinner : 0 < innerIterations) :
    (buresInitState d maxIterations innerIterations).1 = 1 ∧
    (buresInitState d maxIterations innerIterations).2.length =
      ⌈(maxIterations : ℚ) / innerIterations⌉₊ ∧
    (∀ iteration cov diffs,
      (buresBodyFn sqrtm sqrtmOnly covs weights innerIterations iteration
          (cov, diffs)).2 =
        diffs.set (iteration / innerIterations)
          (frobeniusDiffNormalized
            (buresBodyFn sqrtm sqrtmOnly covs weights innerIterations
                iteration (cov, diffs)).1 cov)) ∧
    (covarianceFixpointIter sqrtm sqrtmOnly covs weights tolerance
        minIterations maxIterations innerIterations).2.length =
      ⌈(maxIterations : ℚ) / innerIterations⌉₊ := by
  refine ⟨rfl, ?_, fun iteration cov diffs => rfl, ?_⟩
  · rw [buresInitState]
    simp only [List.length_replicate]
    exact ceilDiv_eq_ceil _ _ hinner
  · rw [← ceilDiv_eq_ceil _ _ hinner]
    exact covarianceFixpointIter_diffs_length sqrtm sqrtmOnly covs weights
      tolerance minIterations maxIterations innerIterations

/-- Witness for C7 at `d = 1`, `k = 1`, `max_iterations = 7`,
`inner_iterations = 3` (so the diagnostics array has `ceil(7/3) = 3`
entries), with trivial square-root parameters. -/
theorem C7_bures_fixpoint_diagnostics_witness :
    (buresInitState 1 7 3).1 = 1 ∧
    (buresInitState 1 7 3).2.length = ⌈(7 : ℚ) / 3⌉₊ ∧
    (∀ iteration cov diffs,
      (buresBodyFn (d := 1) (k := 1) (fun m => (m, m)) (fun m => m)
          (fun _ => 1) (fun _ => 1) 3 iteration (cov, diffs)).2 =
        diffs.set (iteration / 3)
          (frobeniusDiffNormalized
            (buresBodyFn (d := 1) (k := 1) (fun m => (m, m)) (fun m => m)
                (fun _ => 1) (fun _ => 1) 3 iteration (cov, diffs)).1
            cov)) ∧
    (covarianceFixpointIter (d := 1) (k := 1) (fun m => (m, m))
        (fun m => m) (fun _ => 1) (fun _ => 1) (1 / 1000) 1 7 3).2.length =
      ⌈(7 : ℚ) / 3⌉₊ :=
  C7_bures_fixpoint_diagnostics (fun m => (m, m)) (fun m => m)
    (fun _ => 1) (fun _ => 1) (1 / 1000) 1 7 3 (by norm_num)

/-! ### `UnbalancedBures` over the reals

The unbalanced Bures cost calls `jnp.linalg.inv`, `jnp.linalg.slogdet`,
`jnp.linalg.solve` and `matrix_square_root.sqrtm`, all generic
linear-algebra primitives that the spec (section 1) treats as external
collaborators; they are bundled here as parameters.  The `NaN` produced by
the failing branch of `jax.lax.cond` is modelled as `Option.none`; the
source adds the two (finite) norm terms to the possibly-NaN cross term, so
the whole output is NaN exactly when the cross term is. -/

/-- Real `d × d` matrices, for the unbalanced Bures embedding. -/
abbrev MatR (d : ℕ) := Matrix (Fin d) (Fin d) ℝ

/-- External linear-algebra collaborators used by `UnbalancedBures`:
matrix inverse, matrix square root (first output of
`matrix_square_root.sqrtm`), sign-and-log-determinant, and linear solve. -/
structure LinAlgOps (d : ℕ) where
  inv : MatR d → MatR d
  sqrtm : MatR d → MatR d
  slogdet : MatR d → ℝ × ℝ
  solveLin : MatR d → (Fin d → ℝ) → (Fin d → ℝ)

/-- An unbalanced Gaussian input: the embedding of the packed vector
`[mass, mean (d), cov (d * d) raveled]` that `UnbalancedBures.__call__`
unpacks via `x[0]` and `x_to_means_and_covs(x[1:])`. -/
structure UnbalancedGaussian (d : ℕ) where
  mass : ℝ
  mean : Fin d → ℝ
  cov : MatR d

/-- Embedding of `lam = sig2 + gam / 2.0`. -/
noncomputable def ubLam (sigma gamma : ℝ) : ℝ := sigma ^ 2 + gamma / 2

/-- Embedding of `tau = gam / (2.0 * lam)`. -/
noncomputable def ubTau (sigma gamma : ℝ) : ℝ := gamma / (2 * ubLam sigma gamma)

/-- Embedding of `tilde_a` (resp. `tilde_b`):
`0.5 * gam * (iden - lam * inv(cov + lam * iden))`. -/
noncomputable def ubTilde {d : ℕ} (ops : LinAlgOps d) (sigma gamma : ℝ)
    (cov : MatR d) : MatR d :=
  (0.5 * gamma) •
    ((1 : MatR d) - ubLam sigma gamma • ops.inv (cov + ubLam sigma gamma • 1))

/-- Embedding of `tilde_a_b = tilde_a @ tilde_b`. -/
noncomputable def ubTildeAB {d : ℕ} (ops : LinAlgOps d) (sigma gamma : ℝ)
    (x y : UnbalancedGaussian d) : MatR d :=
  ubTilde ops sigma gamma x.cov * ubTilde ops sigma gamma y.cov

/-- Embedding of `c_mat`:
`sqrtm(1 / tau * tilde_a_b + 0.25 * sig2 ** 2 * iden) - 0.5 * sig2 * iden`. -/
noncomputable def ubCMat {d : ℕ} (ops : LinAlgOps d) (sigma gamma : ℝ)
    (x y : UnbalancedGaussian d) : MatR d :=
  ops.sqrtm ((1 / ubTau sigma gamma) • ubTildeAB ops sigma gamma x y +
      (0.25 * (sigma ^ 2) ^ 2) • 1) -
    (0.5 * sigma ^ 2) • 1

/-- Embedding of the matrix whose log-determinant sign is the fourth
indicator: `c_mat - 2.0 * tilde_a_b / gam`. -/
noncomputable def ubCAB {d : ℕ} (ops : LinAlgOps d) (sigma gamma : ℝ)
    (x y : UnbalancedGaussian d) : MatR d :=
  ubCMat ops sigma gamma x y - (2 / gamma) • ubTildeAB ops sigma gamma x y

/-- Embedding of the four `slogdet` sign indicators of
`UnbalancedBures.__call__`, in source order: for `c_mat`, `tilde_a_b`,
`cov_x @ cov_y`, and `c_mat - 2 * tilde_a_b / gam`. -/
noncomputable def ubSigns {d : ℕ} (ops : LinAlgOps d) (sigma gamma : ℝ)
    (x y : UnbalancedGaussian d) : ℝ × ℝ × ℝ × ℝ :=
  ((ops.slogdet (ubCMat ops sigma gamma x y)).1,
   (ops.slogdet (ubTildeAB ops sigma gamma x y)).1,
   (ops.slogdet (x.cov * y.cov)).1,
   (ops.slogdet (ubCAB ops sigma gamma x y)).1)

/-- Embedding of `log_m_pi`, the log of the total mass of the optimal
transport plan, accumulated exactly as in the source. -/
noncomputable def ubLogMPi {d : ℕ} (ops : LinAlgOps d) (sigma gamma : ℝ)
    (x y : UnbalancedGaussian d) : ℝ :=
  let sig2 := sigma ^ 2
  let gam := gamma
  let lam := ubLam sigma gamma
  let tau := ubTau sigma gamma
  let ldetC := (ops.slogdet (ubCMat ops sigma gamma x y)).2
  let ldetTab := (ops.slogdet (ubTildeAB ops sigma gamma x y)).2
  let ldetAb := (ops.slogdet (x.cov * y.cov)).2
  let ldetCab := (ops.slogdet (ubCAB ops sigma gamma x y)).2
  let diffMeans := x.mean - y.mean
  (0.5 * d * sig2 / (gam + sig2)) * Real.log sig2 +
    (1 / (tau + 1)) *
      (Real.log x.mass + Real.log y.mass + ldetC +
        0.5 * (tau * ldetTab - ldetAb)) -
    (∑ i, diffMeans i *
        ops.solveLin (x.cov + y.cov + lam • 1) diffMeans i) /
      (2 * (tau + 1)) -
    0.5 * ldetCab

/-- Embedding of `UnbalancedBures.norm`: `gamma * x[..., 0]`. -/
noncomputable def ubNorm {d : ℕ} (gamma : ℝ) (x : UnbalancedGaussian d) : ℝ :=
  gamma * x.mass

open Classical in
/-- Embedding of `UnbalancedBures.__call__`: the sum of the two norms and
the cross term, where `jax.lax.cond` yields the closed-form cross term when
the four log-determinant signs sum to `4` and NaN (modelled as `none`)
otherwise. -/
noncomputable def unbalancedBuresCall {d : ℕ} (ops : LinAlgOps d)
    (sigma gamma : ℝ) (x y : UnbalancedGaussian d) : Option ℝ :=
  let s := ubSigns ops sigma gamma x y
  if s.1 + s.2.1 + s.2.2.1 + s.2.2.2 = 4 then
    some (ubNorm gamma x + ubNorm gamma y +
      (2 * sigma ^ 2 * x.mass * y.mass -
        2 * (sigma ^ 2 + gamma) * Real.exp (ubLogMPi ops sigma gamma x y)))
  else none

/-- Four reals, each of which is a `slogdet` sign (in `{-1, 0, 1}`), sum to
`4` exactly when each equals `1`. -/
theorem slogdet_sign_sum_eq_four {a b c e : ℝ}
    (ha : a = -1 ∨ a = 0 ∨ a = 1) (hb : b = -1 ∨ b = 0 ∨ b = 1)
    (hc : c = -1 ∨ c = 0 ∨ c = 1) (he : e = -1 ∨ e = 0 ∨ e = 1) :
    a + b + c + e = 4 ↔ a = 1 ∧ b = 1 ∧ c = 1 ∧ e = 1 := by
  have ha1 : a ≤ 1 := by rcases ha with rfl | rfl | rfl <;> norm_num
  have hb1 : b ≤ 1 := by rcases hb with rfl | rfl | rfl <;> norm_num
  have hc1 : c ≤ 1 := by rcases hc with rfl | rfl | rfl <;> norm_num
  have he1 : e ≤ 1 := by rcases he with rfl | rfl | rfl <;> norm_num
  constructor
  · intro h
    refine ⟨by linarith, by linarith, by linarith, by linarith⟩
  · rintro ⟨rfl, rfl, rfl, rfl⟩
    norm_num

/-! ### Claim theorems: C2 -/

/-- C2: for unbalanced-Gaussian inputs with positive masses,
`UnbalancedBures.__call__` returns NaN (`none`) exactly when at least one
of the four log-determinant sign indicators differs from the expected `+1`
(given that each indicator, being a `slogdet` sign, lies in `{-1, 0, 1}`);
when all four are `+1` it returns the closed-form value
`norm(x) + norm(y) + 2σ²·mass_x·mass_y − 2(σ²+γ)·exp(log_m_pi)`.  The
embedded function is total, mirroring the source's exception-free NaN
propagation. -/
theorem C2_unbalanced_bures_nan_guard {d : ℕ} (ops : LinAlgOps d)
    (sigma gamma : ℝ) (x y : UnbalancedGaussian d)
    (_hx : 0 < x.mass) (_hy : 0 < y.mass)
    (hsign : ∀ m : MatR d, (ops.slogdet m).1 = -1 ∨
      (ops.slogdet m).1 = 0 ∨ (ops.slogdet m).1 = 1) :
    (unbalancedBuresCall ops sigma gamma x y = none ↔
      ¬ ((ubSigns ops sigma gamma x y).1 = 1 ∧
         (ubSigns ops sigma gamma x y).2.1 = 1 ∧
         (ubSigns ops sigma gamma x y).2.2.1 = 1 ∧
         (ubSigns ops sigma gamma x y).2.2.2 = 1)) ∧
    (((ubSigns ops sigma gamma x y).1 = 1 ∧
      (ubSigns ops sigma gamma x y).2.1 = 1 ∧
      (ubSigns ops sigma gamma x y).2.2.1 = 1 ∧
      (ubSigns ops sigma gamma x y).2.2.2 = 1) →
      unbalancedBuresCall ops sigma gamma x y =
        some (ubNorm gamma x + ubNorm gamma y +
          (2 * sigma ^ 2 * x.mass * y.mass -
            2 * (sigma ^ 2 + gamma) *
              Real.exp (ubLogMPi ops sigma gamma x y)))) := by
  have hkey : (ubSigns ops sigma gamma x y).1 +
        (ubSigns ops sigma gamma x y).2.1 +
        (ubSigns ops sigma gamma x y).2.2.1 +
        (ubSigns ops sigma gamma x y).2.2.2 = 4 ↔
      ((ubSigns ops sigma gamma x y).1 = 1 ∧
       (ubSigns ops sigma gamma x y).2.1 = 1 ∧
       (ubSigns ops sigma gamma x y).2.2.1 = 1 ∧
       (ubSigns ops sigma gamma x y).2.2.2 = 1) :=
    slogdet_sign_sum_eq_four (hsign _) (hsign _) (hsign _) (hsign _)
  constructor
  · constructor
    · intro hnone hall
      rw [unbalancedBuresCall, if_pos (hkey.mpr hall)] at hnone
      exact Option.noConfusion hnone
    · intro hnall
      rw [unbalancedBuresCall, if_neg (fun hc => hnall (hkey.mp hc))]
  · intro hall
    rw [unbalancedBuresCall, if_pos (hkey.mpr hall)]

/-- Witness for C2 at `d = 1` with a `slogdet` stub whose sign is always
`-1`: every sign check fails, so the cost is NaN (`none`). -/
theorem C2_unbalanced_bures_nan_guard_witness :
    unbalancedBuresCall (d := 1)
      ⟨fun m => m, fun m => m, fun _ => (-1, 0), fun _ v => v⟩ 1 1
      ⟨1, fun _ => 0, 1⟩ ⟨1, fun _ => 0, 1⟩ = none :=
  ((C2_unbalanced_bures_nan_guard (d := 1)
      ⟨fun m => m, fun m => m, fun _ => (-1, 0), fun _ v => v⟩ 1 1
      ⟨1, fun _ => 0, 1⟩ ⟨1, fun _ => 0, 1⟩ (by norm_num) (by norm_num)
      (fun m => Or.inl rfl)).1).mpr
    (fun hall => by
      have h := hall.1
      simp only [ubSigns] at h
      norm_num at h)

/-! ### `SoftDTW` over extended reals

Values in the soft-DTW recurrence live in `EReal`, so that the `+inf`
padding of the antidiagonal reorganization is representable.  The smoothed
minimum `mu.softmin` lives in `ott.math.utils`, outside this repository
snapshot, so the three-way soft-min applied along the stacked axis is a
parameter of this development (the claim holds for any choice, the
smoothing temperature included).  The ground cost is likewise a parameter;
the source default `SqEuclidean` is embedded below over the reals.
Sequences are lists of points (the source's reshape of 1-D inputs to
column matrices is the identity here). -/

/-- Embedding of `SqEuclidean.__call__` over the reals: the default ground
cost of `SoftDTW`. -/
noncomputable def sqEuclideanCallR (x y : List ℝ) : ℝ :=
  (x.map (fun t => t ^ 2)).sum + (y.map (fun t => t ^ 2)).sum +
    (-2 * (List.zipWith (· * ·) x y).sum)

/-- Pointwise ternary zip, for the soft-min over the three stacked
predecessor rows. -/
def zipWith3 {α β γ δ : Type} (f : α → β → γ → δ) :
    List α → List β → List γ → List δ
  | a :: as, b :: bs, c :: cs => f a b c :: zipWith3 f as bs cs
  | _, _, _ => []

/-- Row `k` of `model_matrix` in `SoftDTW._soft_dtw`: the `k`-th
antidiagonal of the `n × m` cost matrix, padded with `+∞`.  The source
builds this by scattering `dist.ravel()` through the triangular mask
`np.tri(n + m - 1, n, k=0) & rot180` column by column; entry `i` of row
`k` receives `dist[i, k - i]` when `i ≤ k` and `k - i < m` (the scattered
positions) and `+∞` (the `jnp.full` fill value) otherwise. -/
noncomputable def modelMatrixRow (dist : ℕ → ℕ → ℝ) (m n k : ℕ) : List EReal :=
  (List.range n).map fun i =>
    if i ≤ k ∧ k - i < m then ((dist i (k - i) : ℝ) : EReal) else ⊤

/-- Embedding of `jnp.pad(v, (1, 0), constant_values=jnp.inf)`. -/
def padInf (v : List EReal) : List EReal := ⊤ :: v

/-- Embedding of the `body` of the `jax.lax.scan` in `SoftDTW._soft_dtw`:
soft-min of the three predecessor entries (diagonal, right, down) plus the
current antidiagonal, padded in front with `+∞`. -/
noncomputable def softDTWBody (softmin : EReal → EReal → EReal → EReal)
    (twoAgo oneAgo current : List EReal) : List EReal :=
  let diagonal := twoAgo.dropLast
  let right := oneAgo.dropLast
  let down := oneAgo.tail
  let best := zipWith3 softmin diagonal right down
  padInf (List.zipWith (· + ·) best current)

/-- Embedding of the `jax.lax.scan` over the remaining antidiagonals: the
carry is `(two_ago, one_ago)`, and each step shifts in the freshly
computed row. -/
noncomputable def softDTWScan (softmin : EReal → EReal → EReal → EReal)
    (init : List EReal × List EReal) (rows : List (List EReal)) :
    List EReal × List EReal :=
  rows.foldl
    (fun carry current => (carry.2, softDTWBody softmin carry.1 carry.2 current))
    init

/-- Embedding of `SoftDTW._soft_dtw` on an `n × m` ground-cost matrix:
transpose so that `n ≥ m`, reorganize into antidiagonal rows, seed the
recurrence with the first two rows, scan the rest, and return the last
entry of the final carry. -/
noncomputable def softDTWRaw (softmin : EReal → EReal → EReal → EReal)
    (dist : ℕ → ℕ → ℝ) (n m : ℕ) : EReal :=
  let t := if n < m then (m, n, fun i j => dist j i) else (n, m, dist)
  let nn := t.1
  let mm := t.2.1
  let dd := t.2.2
  let row := fun k => modelMatrixRow dd mm nn k
  let init : List EReal × List EReal :=
    (padInf (row 0),
     padInf ((row 1).map (fun v => v + (row 0).getD 0 ⊤)))
  let ks := (List.range (nn + mm - 1)).drop 2
  (softDTWScan softmin init (ks.map row)).2.getLastD ⊤

/-- Embedding of the soft-DTW value between two sequences of points: the
ground-cost matrix is the `all_pairs` table of the ground cost. -/
noncomputable def softDTW (softmin : EReal → EReal → EReal → EReal)
    (ground : List ℝ → List ℝ → ℝ) (t1 t2 : List (List ℝ)) : EReal :=
  let dist := allPairs ground t1 t2
  softDTWRaw softmin (fun i j => (dist.getD i []).getD j 0)
    t1.length t2.length

/-- Embedding of `SoftDTW.__call__`: the plain soft-DTW value, minus, in
the debiased case, half the sum of the two self-alignment values. -/
noncomputable def softDTWCall (softmin : EReal → EReal → EReal → EReal)
    (ground : List ℝ → List ℝ → ℝ) (debiased : Bool)
    (x y : List (List ℝ)) : EReal :=
  let cxy := softDTW softmin ground x y
  if debiased then
    cxy - ((0.5 : ℝ) : EReal) *
      (softDTW softmin ground x x + softDTW softmin ground y y)
  else cxy

/-! ### Claim theorems: C8 -/

/-- C8: the debiased soft-DTW self-distance is exactly zero: on the pair
`(x, x)`, `__call__` computes `c(x,x) - 0.5 * (c(x,x) + c(x,x))` over the
same inner soft-DTW computation, hence returns `0` whenever that inner
value is finite (a real `r`).  The statement is generic in the soft-min
and the ground cost. -/
theorem C8_debiased_softdtw_self_zero
    (softmin : EReal → EReal → EReal → EReal)
    (ground : List ℝ → List ℝ → ℝ) (x : List (List ℝ)) (r : ℝ)
    (hfin : softDTW softmin ground x x = (r : EReal)) :
    softDTWCall softmin ground true x x = 0 := by
  show softDTW softmin ground x x - ((0.5 : ℝ) : EReal) *
      (softDTW softmin ground x x + softDTW softmin ground x x) = 0
  rw [hfin, ← EReal.coe_add, ← EReal.coe_mul, ← EReal.coe_sub,
    show r - 0.5 * (r + r) = 0 by ring, EReal.coe_zero]

/-- Witness for C8 on the two-point sequence `x = [[0], [0]]`, with the
ground cost `SqEuclidean` and the soft-min instantiated to the projection
on the third entry: the inner soft-DTW value is the real number `0`. -/
theorem C8_debiased_softdtw_self_zero_witness :
    softDTWCall (fun _ _ c => c) sqEuclideanCallR true [[0], [0]] [[0], [0]]
      = 0 := by
  have hfin : softDTW (fun _ _ c => c) sqEuclideanCallR [[0], [0]] [[0], [0]]
      = ((0 : ℝ) : EReal) := by
    norm_num [softDTW, softDTWRaw, softDTWScan, softDTWBody, modelMatrixRow,
      padInf, zipWith3, allPairs, sqEuclideanCallR, List.range_succ,
      ← EReal.coe_add]
  exact C8_debiased_softdtw_self_zero (fun _ _ c => c) sqEuclideanCallR
    [[0], [0]] 0 hfin

end OTTCosts
